import Mathlib

/-!
Verification of the space-cli release command and runtime manager.

The Go sources embedded here are:
- the release command (selectRevision, release) in the cmd package;
- the runtime Manager (StoreProjectMeta, GetProjectMeta, AddSpaceToGitignore).

Remote collaborators (the API client), the interactive chooser and the
filesystem are modelled as explicit inputs; the orchestrator additionally
returns the ordered trace of observable events it performs, mirroring the
strictly sequential Go control flow.
-/

namespace SpaceCLI

/-- A revision as used by the release command: a server-assigned identifier
and a human-readable tag (api.Revision, used in part_000). -/
structure Revision where
  id : String
  tag : String
deriving DecidableEq

/-- Errors surfaced by remote collaborators. `unauthenticated` models
auth.ErrNoAccessTokenFound, which the Go code special-cases with
errors.Is; `msg s` models any other error, carrying its text. -/
inductive ApiErr where
  | unauthenticated
  | msg (s : String)
deriving DecidableEq

/-- Go map assignment m[k] = v on the tag-to-revision map: overwrites the
entry for an existing key, otherwise adds the pair. -/
def mapInsert : List (String × Revision) → String → Revision → List (String × Revision)
  | [], k, v => [(k, v)]
  | (k', v') :: m, k, v => if k' = k then (k, v) :: m else (k', v') :: mapInsert m k v

/-- Go map read m[k]: the value for the key, or none (Go: the nil zero
value) when the key is absent. -/
def mapGet : List (String × Revision) → String → Option Revision
  | [], _ => none
  | (k', v') :: m, k => if k' = k then some v' else mapGet m k

/-- Result of selectRevision: the (revision, error) pair the Go function
returns, plus the list of tags that was offered to the interactive
chooser (none when the chooser was never invoked). -/
structure SelResult where
  revision : Option Revision
  err : Option ApiErr
  offered : Option (List String)
deriving DecidableEq

/-- selectRevision from part_000 lines 92-134. `fetch` is the result of
shared.Client.GetRevisions, `choose` is the interactive chooser
(choose.Run). The empty-list branch mirrors the Go source exactly: it
returns `err`, which at that point is the nil error of the successful
fetch. -/
def selectRevision (fetch : Except ApiErr (List Revision)) (useLatestRevision : Bool)
    (choose : List String → Except ApiErr String) : SelResult :=
  match fetch with
  | .error e => ⟨none, some e, none⟩
  | .ok [] => ⟨none, none, none⟩
  | .ok (r0 :: rest) =>
    if useLatestRevision then ⟨some r0, none, none⟩
    else
      let revisions := (r0 :: rest).take 5
      let tags := revisions.map (fun r => r.tag)
      let revisionMap := revisions.foldl (fun m r => mapInsert m r.tag r) []
      match choose tags with
      | .error e => ⟨none, some e, some tags⟩
      | .ok tag => ⟨mapGet revisionMap tag, none, some tags⟩

/-- Modelled from the spec: api.Complete, the single recognized success
value of a promotion status (the api package is not under src/). Its
concrete text is irrelevant; only equality with it is tested. -/
def Complete : String := "complete"

/-- Observable events of one run of the release orchestrator, in the
order the Go code performs them. -/
inductive Event where
  | loginInfo
  | failCreateMsg
  | logsOpenCall (releaseID : String)
  | logLine (line : String)
  | streamErrMsg
  | streamClose
  | promotionCall (releaseID : String)
  | checkFailMsg
  | successMsg
  | listedMsg
  | failMsg
deriving DecidableEq

/-- The remote collaborators of one release run: the results of
CreateRelease (the new release id), GetReleaseLogs (the lines the
scanner reads, in order), the scanner error after the stream ends
(scanner.Err()), and GetReleasePromotion (the status). -/
structure ReleaseEnv where
  createRelease : Except ApiErr String
  getReleaseLogs : Except ApiErr (List String)
  scanErr : Option ApiErr
  getReleasePromotion : Except ApiErr String

/-- release from part_000 lines 136-192: submit the release, on
unauthenticated print login info and return nil, on another error fail;
otherwise open the log stream, forward every line, check the scanner
error, then query the promotion status once and classify it. The
deferred Close of the stream fires at function return, hence
streamClose is the last event on every path where the stream was
opened. Returns the event trace and the Go error result. -/
def release (env : ReleaseEnv) (listedRelease : Bool) : List Event × Option ApiErr :=
  match env.createRelease with
  | .error .unauthenticated => ([.loginInfo], none)
  | .error e => ([.failCreateMsg], some e)
  | .ok rid =>
    match env.getReleaseLogs with
    | .error e => ([.logsOpenCall rid, .streamErrMsg], some e)
    | .ok lines =>
      let streamed := lines.map Event.logLine
      match env.scanErr with
      | some e => (.logsOpenCall rid :: streamed ++ [.streamErrMsg, .streamClose], some e)
      | none =>
        match env.getReleasePromotion with
        | .error e =>
          (.logsOpenCall rid :: streamed ++ [.promotionCall rid, .checkFailMsg, .streamClose],
            some e)
        | .ok status =>
          if status = Complete then
            (.logsOpenCall rid :: streamed
              ++ [.promotionCall rid, .successMsg]
              ++ (if listedRelease then [.listedMsg] else []) ++ [.streamClose], none)
          else
            (.logsOpenCall rid :: streamed ++ [.promotionCall rid, .failMsg, .streamClose],
              some (.msg ("release failed: " ++ status)))

/-- Project metadata: the project identifier (ProjectMeta's further
fields are opaque to this core per the spec, so only the id is
modelled). -/
structure ProjectMeta where
  id : String
deriving DecidableEq

/-- Modelled from the spec: the stable encoding of ProjectMeta
(json.Marshal in StoreProjectMeta; the encoder is the Go standard
library, outside src/). Fixed JSON-like framing around the id. -/
def metaPre : List Char := ['\x7b', '"', 'i', 'd', '"', ':', '"']

/-- Closing framing of the ProjectMeta encoding. -/
def metaSuf : List Char := ['"', '\x7d']

/-- Modelled from the spec: serialize a ProjectMeta to bytes. -/
def marshalMeta (p : ProjectMeta) : List Char :=
  metaPre ++ p.id.data ++ metaSuf

/-- Modelled from the spec: projectMetaFromBytes, the decoder used by
GetProjectMeta (defined elsewhere in the repository, not under src/).
Accepts exactly the framed encoding and recovers the id; anything else
is a decode failure. -/
def projectMetaFromBytes (cs : List Char) : Option ProjectMeta :=
  if 9 ≤ cs.length ∧ cs.take 7 = metaPre ∧ cs.drop (cs.length - 2) = metaSuf then
    some ⟨String.mk ((cs.drop 7).take (cs.length - 9))⟩
  else none

/-- State of one file on disk: absent, present with contents, or a file
whose read fails with an error other than not-exist. -/
inductive FileState where
  | absent
  | present (contents : List Char)
  | readFault
deriving DecidableEq

/-- Errors of the manager's file operations: os.ErrNotExist, any other
read error, or a decode failure of the stored metadata. -/
inductive FsErr where
  | notExist
  | readFailed
  | decodeFailed
deriving DecidableEq

/-- Manager.readFile: os.Open + ReadAll on one file. -/
def readFile : FileState → Except FsErr (List Char)
  | .absent => .error .notExist
  | .readFault => .error .readFailed
  | .present c => .ok c

/-- The manager's on-disk state relevant to the claims: the project meta
file (spacePath/meta) and the README note inside the hidden directory. -/
structure Manager where
  metaFile : FileState
  readmeFile : FileState
deriving DecidableEq

/-- The fixed warning note StoreProjectMeta writes next to the meta file. -/
def readmeNote : List Char :=
  "Don't commit this folder (.space) to git as it may contain security-sensitive data.".data

/-- StoreProjectMeta from manager.go lines 74-84: marshal the meta,
best-effort write of the README note, then write the meta file.
Returns the new state and the Go error result. -/
def StoreProjectMeta (m : Manager) (p : ProjectMeta) : Manager × Option FsErr :=
  let _ := m
  ({ metaFile := .present (marshalMeta p), readmeFile := .present readmeNote }, none)

/-- GetProjectMeta from manager.go lines 87-102: read the meta file; a
not-exist read error is the distinguished absent result (nil, nil);
any other read error or a decode failure is surfaced as an error. -/
def GetProjectMeta (m : Manager) : Option ProjectMeta × Option FsErr :=
  match readFile m.metaFile with
  | .error .notExist => (none, none)
  | .error _ => (none, some .readFailed)
  | .ok c =>
    match projectMetaFromBytes c with
    | none => (none, some .decodeFailed)
    | some p => (some p, none)

/-- The ignore pattern AddSpaceToGitignore maintains, as characters. -/
def spacePattern : List Char := ['.', 's', 'p', 'a', 'c', 'e']

/-- Word character of Go's regexp \b boundary: [0-9A-Za-z_]. -/
def isWordChar (c : Char) : Bool := c.isAlphanum || c = '_'

/-- Whether one line (no newline inside) matches the Go regular
expression fragment ^(\.space)\b: it starts with ".space" and the next
character, if any, is not a word character. -/
def lineHasSpacePat (l : List Char) : Bool :=
  decide (l.take 6 = spacePattern) &&
    (match l.drop 6 with
     | [] => true
     | c :: _ => !isWordChar c)

/-- Split contents into lines at newline characters; (?m)^ matches at
the start of each of these lines. -/
def linesOf : List Char → List (List Char)
  | [] => [[]]
  | c :: rest =>
    if c = '\n' then [] :: linesOf rest
    else
      match linesOf rest with
      | [] => [[c]]
      | l :: ls => (c :: l) :: ls

/-- regexp.MatchString with pattern (?m)^(\.space)\b on the contents:
some line starts with ".space" followed by a word boundary. -/
def containsSpacePat (cs : List Char) : Bool :=
  (linesOf cs).any lineHasSpacePat

/-- AddSpaceToGitignore from manager.go lines 116-152, acting on the
.gitignore state (none: the file does not exist). No existing file:
create it containing exactly the pattern. Existing file matching the
regex: do nothing. Otherwise append a newline plus the pattern. -/
def AddSpaceToGitignore (g : Option (List Char)) : Option (List Char) :=
  match g with
  | none => some spacePattern
  | some c =>
    if containsSpacePat c then some c
    else some (c ++ '\n' :: spacePattern)

/-! Helper lemmas -/

theorem mapGet_mapInsert_self (m : List (String × Revision)) (k : String) (v : Revision) :
    mapGet (mapInsert m k v) k = some v := by
  induction m with
  | nil => simp [mapInsert, mapGet]
  | cons kv m ih =>
    obtain ⟨k', v'⟩ := kv
    by_cases h : k' = k <;> simp [mapInsert, mapGet, h, ih]

theorem mapGet_mapInsert_ne (m : List (String × Revision)) (k : String) (v : Revision)
    (t : String) (h : t ≠ k) : mapGet (mapInsert m k v) t = mapGet m t := by
  induction m with
  | nil => simp [mapInsert, mapGet, Ne.symm h]
  | cons kv m ih =>
    obtain ⟨k', v'⟩ := kv
    by_cases h' : k' = k
    · subst h'
      simp [mapInsert, mapGet, Ne.symm h]
    · by_cases h'' : k' = t <;> simp [mapInsert, mapGet, h', h'', ih, h]

theorem getLast?_cons_of_some {α : Type} (a x : α) (l : List α) (h : l.getLast? = some x) :
    (a :: l).getLast? = some x := by
  cases l with
  | nil => simp at h
  | cons b l => rw [List.getLast?_cons_cons]; exact h

theorem mapGet_foldl_mapInsert (rs : List Revision) (t : String) :
    ∀ m, mapGet (rs.foldl (fun acc r => mapInsert acc r.tag r) m) t
      = ((rs.filter (fun r => r.tag = t)).getLast?).orElse (fun _ => mapGet m t) := by
  induction rs with
  | nil => intro m; rfl
  | cons r rs ih =>
    intro m
    rw [List.foldl_cons, ih, List.filter_cons]
    by_cases h : r.tag = t
    · rw [if_pos (decide_eq_true h)]
      cases hL : (rs.filter (fun r => r.tag = t)).getLast? with
      | some x => rw [getLast?_cons_of_some _ x _ hL]; rfl
      | none =>
        rw [List.getLast?_eq_none_iff.mp hL]
        show mapGet (mapInsert m r.tag r) t = some r
        rw [h]
        exact mapGet_mapInsert_self m t r
    · rw [if_neg (by simp [h])]
      cases hL : (rs.filter (fun r => r.tag = t)).getLast? with
      | some x => rfl
      | none =>
        show mapGet (mapInsert m r.tag r) t = mapGet m t
        exact mapGet_mapInsert_ne m r.tag r t (Ne.symm h)

theorem count_map_tag (l : List Revision) (t : String) :
    (l.map (fun r => r.tag)).count t = (l.filter (fun r => r.tag = t)).length := by
  induction l with
  | nil => rfl
  | cons r l ih =>
    rw [List.map_cons, List.count_cons, List.filter_cons, ih]
    by_cases h : r.tag = t <;> simp [h]

theorem projectMetaFromBytes_marshalMeta (p : ProjectMeta) :
    projectMetaFromBytes (marshalMeta p) = some p := by
  have hlen : (marshalMeta p).length = p.id.data.length + 9 := by
    simp [marshalMeta, metaPre, metaSuf]
  have h1 : 9 ≤ (marshalMeta p).length := by rw [hlen]; omega
  have h2 : (marshalMeta p).take 7 = metaPre := by
    rw [show marshalMeta p = metaPre ++ (p.id.data ++ metaSuf) by
      simp [marshalMeta]]
    exact List.take_left' rfl
  have h3 : (marshalMeta p).drop ((marshalMeta p).length - 2) = metaSuf := by
    rw [show marshalMeta p = (metaPre ++ p.id.data) ++ metaSuf by
      simp [marshalMeta]]
    apply List.drop_left'
    simp [metaPre, metaSuf]
  have h4 : ((marshalMeta p).drop 7).take ((marshalMeta p).length - 9) = p.id.data := by
    rw [show marshalMeta p = metaPre ++ (p.id.data ++ metaSuf) by
      simp [marshalMeta]]
    rw [List.drop_left' (show metaPre.length = 7 from rfl)]
    apply List.take_left'
    simp [metaPre, metaSuf]
  unfold projectMetaFromBytes
  rw [if_pos ⟨h1, h2, h3⟩, h4]

theorem linesOf_ne_nil (cs : List Char) : linesOf cs ≠ [] := by
  cases cs with
  | nil => simp [linesOf]
  | cons c rest =>
    by_cases h : c = '\n'
    · simp [linesOf, h]
    · simp only [linesOf, if_neg h]
      cases linesOf rest <;> simp

theorem linesOf_append_newline (xs ys : List Char) :
    linesOf (xs ++ '\n' :: ys) = linesOf xs ++ linesOf ys := by
  induction xs with
  | nil => simp [linesOf]
  | cons c xs ih =>
    by_cases h : c = '\n'
    · subst h
      show linesOf ('\n' :: (xs ++ '\n' :: ys)) = linesOf ('\n' :: xs) ++ linesOf ys
      simp [linesOf, ih]
    · show linesOf (c :: (xs ++ '\n' :: ys)) = linesOf (c :: xs) ++ linesOf ys
      simp only [linesOf, if_neg h, ih]
      cases hx : linesOf xs with
      | nil => exact absurd hx (linesOf_ne_nil xs)
      | cons l ls => simp

theorem containsSpacePat_append_pattern (cs : List Char) :
    containsSpacePat (cs ++ '\n' :: spacePattern) = true := by
  unfold containsSpacePat
  rw [linesOf_append_newline, List.any_append]
  have h : (linesOf spacePattern).any lineHasSpacePat = true := by decide
  rw [h, Bool.or_true]

/-! Claim theorems -/

/-- C1: the claim says a successful fetch returning an empty revision list
makes selectRevision fail with a non-nil "no revisions" error and never
invoke the chooser. The code never invokes the chooser, but returns the
nil error of the successful fetch (Go: return nil, err with err == nil at
line 107), so the error result is nil, contradicting the claim: the whole
result is (nil revision, nil error, chooser not invoked). -/
theorem selectRevision_empty_list_nil_error (u : Bool)
    (ch : List String → Except ApiErr String) :
    selectRevision (.ok []) u ch = ⟨none, none, none⟩ := rfl

/-- C5: storing a ProjectMeta succeeds and a subsequent GetProjectMeta
returns an equal value with no error (serialize-then-deserialize
round-trip). -/
theorem StoreProjectMeta_GetProjectMeta_roundtrip (m : Manager) (p : ProjectMeta) :
    (StoreProjectMeta m p).snd = none
    ∧ GetProjectMeta (StoreProjectMeta m p).fst = (some p, none) := by
  refine ⟨rfl, ?_⟩
  show GetProjectMeta ⟨.present (marshalMeta p), .present readmeNote⟩ = _
  simp [GetProjectMeta, readFile, projectMetaFromBytes_marshalMeta]

/-- C6: GetProjectMeta on a missing metadata file returns the
distinguished absent result (nil meta, nil error); any other read
failure and any decode failure return a non-nil error. -/
theorem GetProjectMeta_absent_not_error (m : Manager) :
    (m.metaFile = .absent → GetProjectMeta m = (none, none))
    ∧ (m.metaFile = .readFault → GetProjectMeta m = (none, some .readFailed))
    ∧ (∀ c, m.metaFile = .present c → projectMetaFromBytes c = none →
        GetProjectMeta m = (none, some .decodeFailed)) := by
  refine ⟨fun h => ?_, fun h => ?_, fun c hc hd => ?_⟩
  · simp [GetProjectMeta, h, readFile]
  · simp [GetProjectMeta, h, readFile]
  · simp [GetProjectMeta, hc, readFile, hd]

/-- C6 witness: the three branches at concrete manager states. -/
theorem GetProjectMeta_absent_not_error_witness :
    GetProjectMeta ⟨.absent, .absent⟩ = (none, none)
    ∧ GetProjectMeta ⟨.readFault, .absent⟩ = (none, some .readFailed)
    ∧ GetProjectMeta ⟨.present [], .absent⟩ = (none, some .decodeFailed) :=
  ⟨(GetProjectMeta_absent_not_error ⟨.absent, .absent⟩).1 rfl,
   (GetProjectMeta_absent_not_error ⟨.readFault, .absent⟩).2.1 rfl,
   (GetProjectMeta_absent_not_error ⟨.present [], .absent⟩).2.2 [] rfl (by decide)⟩

/-- C7: AddSpaceToGitignore is idempotent on the .gitignore content: for
every initial state (absent or any content), applying it twice gives
the same content as applying it once. -/
theorem AddSpaceToGitignore_idempotent (g : Option (List Char)) :
    AddSpaceToGitignore (AddSpaceToGitignore g) = AddSpaceToGitignore g := by
  cases g with
  | none =>
    show AddSpaceToGitignore (some spacePattern) = some spacePattern
    have h : containsSpacePat spacePattern = true := by decide
    simp [AddSpaceToGitignore, h]
  | some c =>
    by_cases h : containsSpacePat c
    · simp [AddSpaceToGitignore, h]
    · simp [AddSpaceToGitignore, h, containsSpacePat_append_pattern]

/-- C9: the existing-pattern check of AddSpaceToGitignore matches any
line starting with ".space" followed by a word boundary, so contents
such as ".space-data" or ".space/" suppress the append (file unchanged,
exact ".space" never added), while ".spacex" does not suppress it. -/
theorem AddSpaceToGitignore_word_boundary (c : List Char) :
    (containsSpacePat c = true → AddSpaceToGitignore (some c) = some c)
    ∧ (containsSpacePat c = false →
        AddSpaceToGitignore (some c) = some (c ++ '\n' :: spacePattern))
    ∧ containsSpacePat (".space-data".data) = true
    ∧ containsSpacePat (".space/".data) = true
    ∧ containsSpacePat (".spacex".data) = false := by
  refine ⟨fun h => ?_, fun h => ?_, by decide, by decide, by decide⟩
  · simp [AddSpaceToGitignore, h]
  · simp [AddSpaceToGitignore, h]

/-- C9 witness: ".space-data" suppresses the append, ".spacex" does not. -/
theorem AddSpaceToGitignore_word_boundary_witness :
    AddSpaceToGitignore (some (".space-data".data)) = some (".space-data".data)
    ∧ AddSpaceToGitignore (some (".spacex".data))
        = some (".spacex".data ++ '\n' :: spacePattern) :=
  ⟨(AddSpaceToGitignore_word_boundary (".space-data".data)).1 (by decide),
   (AddSpaceToGitignore_word_boundary (".spacex".data)).2.1 (by decide)⟩

/-- C8: with useLatest=false on a non-empty list, the chooser is offered
exactly the tags of the first five revisions in original order (all of
them when there are at most five). -/
theorem selectRevision_window_truncation (rs : List Revision)
    (ch : List String → Except ApiErr String) (h : rs ≠ []) :
    (selectRevision (.ok rs) false ch).offered
        = some ((rs.take 5).map (fun r => r.tag))
    ∧ ((rs.take 5).map (fun r => r.tag)).length = min 5 rs.length
    ∧ (rs.length ≤ 5 → (rs.take 5).map (fun r => r.tag) = rs.map (fun r => r.tag)) := by
  refine ⟨?_, ?_, fun hle => ?_⟩
  · cases rs with
    | nil => exact absurd rfl h
    | cons r0 rest =>
      cases hch : ch (((r0 :: rest).take 5).map (fun r => r.tag)) <;>
        (simp at hch; simp [selectRevision, hch])
  · simp
  · rw [List.take_of_length_le hle]

/-- C8 witness: eight revisions; only the first five tags are offered,
in order. -/
theorem selectRevision_window_truncation_witness :
    (selectRevision
        (.ok [⟨"1", "a"⟩, ⟨"2", "b"⟩, ⟨"3", "c"⟩, ⟨"4", "d"⟩,
              ⟨"5", "e"⟩, ⟨"6", "f"⟩, ⟨"7", "g"⟩, ⟨"8", "h"⟩])
        false (fun _ => Except.ok "c")).offered
      = some ["a", "b", "c", "d", "e"] := by
  have hw := (selectRevision_window_truncation
      [⟨"1", "a"⟩, ⟨"2", "b"⟩, ⟨"3", "c"⟩, ⟨"4", "d"⟩,
       ⟨"5", "e"⟩, ⟨"6", "f"⟩, ⟨"7", "g"⟩, ⟨"8", "h"⟩]
      (fun _ => Except.ok "c") (by decide)).1
  rw [hw]; rfl

/-- C10: with a duplicate tag among the first five revisions, the
chooser is offered the duplicate tag once per occurrence, and choosing
a tag returns the last revision of the window carrying it (the
tag-to-revision map is built front to back with overwrite, so later,
older entries win). -/
theorem selectRevision_duplicate_tag_last_wins (rs : List Revision) (t : String)
    (h : rs ≠ []) :
    (selectRevision (.ok rs) false (fun _ => Except.ok t)).revision
        = ((rs.take 5).filter (fun r => r.tag = t)).getLast?
    ∧ (selectRevision (.ok rs) false (fun _ => Except.ok t)).offered
        = some ((rs.take 5).map (fun r => r.tag))
    ∧ ((rs.take 5).map (fun r => r.tag)).count t
        = ((rs.take 5).filter (fun r => r.tag = t)).length := by
  refine ⟨?_, ?_, count_map_tag _ _⟩
  · cases rs with
    | nil => exact absurd rfl h
    | cons r0 rest =>
      show mapGet (((r0 :: rest).take 5).foldl (fun m r => mapInsert m r.tag r) []) t = _
      rw [mapGet_foldl_mapInsert]
      cases hL : (((r0 :: rest).take 5).filter (fun r => r.tag = t)).getLast? <;> rfl
  · cases rs with
    | nil => exact absurd rfl h
    | cons r0 rest => rfl

/-- C10 witness: two revisions share the tag "t" in the window; the
chosen revision is the later (older) of the two. -/
theorem selectRevision_duplicate_tag_last_wins_witness :
    (selectRevision (.ok [⟨"i1", "t"⟩, ⟨"i2", "t"⟩, ⟨"i3", "u"⟩]) false
        (fun _ => Except.ok "t")).revision
      = (([⟨"i1", "t"⟩, ⟨"i2", "t"⟩, ⟨"i3", "u"⟩] : List Revision).take 5
          |>.filter (fun r => r.tag = "t")).getLast? :=
  (selectRevision_duplicate_tag_last_wins
    [⟨"i1", "t"⟩, ⟨"i2", "t"⟩, ⟨"i3", "u"⟩] "t" (by decide)).1

/-- C2: when the create-release call returns Unauthenticated, the
orchestrator prints the login guidance, never opens a log stream,
never queries promotion status and returns nil; any other submission
error takes the generic-failure path instead (non-nil error, no login
guidance). -/
theorem release_unauthenticated_short_circuit (env : ReleaseEnv) (listed : Bool)
    (h : env.createRelease = .error .unauthenticated) :
    release env listed = ([Event.loginInfo], none)
    ∧ Event.loginInfo ∈ (release env listed).fst
    ∧ (∀ rid, Event.logsOpenCall rid ∉ (release env listed).fst)
    ∧ (∀ rid, Event.promotionCall rid ∉ (release env listed).fst)
    ∧ (release env listed).snd = none
    ∧ (∀ env2 listed2 s, env2.createRelease = .error (.msg s) →
        (release env2 listed2).snd = some (.msg s)
        ∧ Event.loginInfo ∉ (release env2 listed2).fst) := by
  have hrel : release env listed = ([Event.loginInfo], none) := by
    unfold release; rw [h]
  refine ⟨hrel, ?_, ?_, ?_, ?_, ?_⟩
  · rw [hrel]; simp
  · intro rid; rw [hrel]; simp
  · intro rid; rw [hrel]; simp
  · rw [hrel]
  · intro env2 listed2 s h2
    have hrel2 : release env2 listed2 = ([Event.failCreateMsg], some (.msg s)) := by
      unfold release; rw [h2]
    rw [hrel2]
    exact ⟨rfl, by simp⟩

/-- C2 witness: an unauthenticated submission and a generic failing
submission at concrete environments. -/
theorem release_unauthenticated_short_circuit_witness :
    release ⟨.error .unauthenticated, .ok [], none, .ok "s"⟩ false
        = ([Event.loginInfo], none)
    ∧ (release ⟨.error (.msg "boom"), .ok [], none, .ok "s"⟩ false).snd
        = some (.msg "boom") :=
  ⟨(release_unauthenticated_short_circuit
      ⟨.error .unauthenticated, .ok [], none, .ok "s"⟩ false rfl).1,
   ((release_unauthenticated_short_circuit
      ⟨.error .unauthenticated, .ok [], none, .ok "s"⟩ false rfl).2.2.2.2.2
      ⟨.error (.msg "boom"), .ok [], none, .ok "s"⟩ false "boom" rfl).1⟩

/-- C3: in every run that reaches the promotion-status query, the log
stream was already consumed to exhaustion: the trace is the open of
the stream, then every log line in order, then the promotion query;
nothing after the query is a log line, so streaming and polling never
overlap. -/
theorem release_streams_before_poll (env : ReleaseEnv) (listed : Bool)
    (rid : String) (lines : List String)
    (h1 : env.createRelease = .ok rid) (h2 : env.getReleaseLogs = .ok lines)
    (h3 : env.scanErr = none) :
    ∃ post, (release env listed).fst
        = Event.logsOpenCall rid :: (lines.map Event.logLine
            ++ Event.promotionCall rid :: post)
      ∧ ∀ e ∈ post, ∀ s, e ≠ Event.logLine s := by
  unfold release
  rw [h1, h2, h3]
  cases hp : env.getReleasePromotion with
  | error e =>
    refine ⟨[Event.checkFailMsg, Event.streamClose], ?_, ?_⟩
    · simp
    · intro ev he s; fin_cases he <;> simp
  | ok status =>
    by_cases hs : status = Complete
    · cases listed with
      | true =>
        refine ⟨[Event.successMsg, Event.listedMsg, Event.streamClose], ?_, ?_⟩
        · simp [hs]
        · intro ev he s; fin_cases he <;> simp
      | false =>
        refine ⟨[Event.successMsg, Event.streamClose], ?_, ?_⟩
        · simp [hs]
        · intro ev he s; fin_cases he <;> simp
    · refine ⟨[Event.failMsg, Event.streamClose], ?_, ?_⟩
      · simp [hs]
      · intro ev he s; fin_cases he <;> simp

/-- C3 witness: a concrete run whose trace streams both log lines
before the single promotion query. -/
theorem release_streams_before_poll_witness :
    ∃ post, (release ⟨.ok "rid", .ok ["a", "b"], none, .ok "done"⟩ true).fst
        = Event.logsOpenCall "rid" :: (["a", "b"].map Event.logLine
            ++ Event.promotionCall "rid" :: post)
      ∧ ∀ e ∈ post, ∀ s, e ≠ Event.logLine s :=
  release_streams_before_poll ⟨.ok "rid", .ok ["a", "b"], none, .ok "done"⟩
    true "rid" ["a", "b"] rfl rfl rfl

/-- C4: once a promotion status is obtained, the success value Complete
yields a nil error with the success summary, and the discovery-listing
line is present exactly when listed=true; any other status yields an
error whose detail contains that status value. -/
theorem release_terminal_classification (env : ReleaseEnv) (listed : Bool)
    (rid : String) (lines : List String) (status : String)
    (h1 : env.createRelease = .ok rid) (h2 : env.getReleaseLogs = .ok lines)
    (h3 : env.scanErr = none) (h4 : env.getReleasePromotion = .ok status) :
    (status = Complete →
        (release env listed).snd = none
      ∧ Event.successMsg ∈ (release env listed).fst
      ∧ (Event.listedMsg ∈ (release env listed).fst ↔ listed = true))
    ∧ (status ≠ Complete →
        (release env listed).snd = some (.msg ("release failed: " ++ status))
      ∧ ∃ a b, "release failed: " ++ status = a ++ status ++ b) := by
  constructor
  · intro hs
    have hrel : release env listed
        = (Event.logsOpenCall rid :: lines.map Event.logLine
            ++ [Event.promotionCall rid, Event.successMsg]
            ++ (if listed then [Event.listedMsg] else []) ++ [Event.streamClose],
           none) := by
      unfold release
      rw [h1, h2, h3, h4]
      simp [hs, List.append_assoc]
    refine ⟨by rw [hrel], ?_, ?_⟩
    · rw [hrel]; simp
    · rw [hrel]; cases listed <;> simp
  · intro hs
    have hrel : release env listed
        = (Event.logsOpenCall rid :: lines.map Event.logLine
            ++ [Event.promotionCall rid, Event.failMsg, Event.streamClose],
           some (.msg ("release failed: " ++ status))) := by
      unfold release
      rw [h1, h2, h3, h4]
      simp [hs, List.append_assoc]
    exact ⟨by rw [hrel], "release failed: ", "", by simp⟩

/-- C4 witness: a completed listed release succeeds with the listing
line; a release with status "failed" carries that status in the error
detail. -/
theorem release_terminal_classification_witness :
    ((release ⟨.ok "r", .ok ["x"], none, .ok Complete⟩ true).snd = none
      ∧ Event.successMsg ∈ (release ⟨.ok "r", .ok ["x"], none, .ok Complete⟩ true).fst
      ∧ (Event.listedMsg ∈ (release ⟨.ok "r", .ok ["x"], none, .ok Complete⟩ true).fst
          ↔ true = true))
    ∧ ((release ⟨.ok "r", .ok ["x"], none, .ok "failed"⟩ false).snd
          = some (.msg ("release failed: " ++ "failed"))
      ∧ ∃ a b, "release failed: " ++ "failed" = a ++ "failed" ++ b) :=
  ⟨(release_terminal_classification
      ⟨.ok "r", .ok ["x"], none, .ok Complete⟩ true "r" ["x"] Complete
      rfl rfl rfl rfl).1 rfl,
   (release_terminal_classification
      ⟨.ok "r", .ok ["x"], none, .ok "failed"⟩ false "r" ["x"] "failed"
      rfl rfl rfl rfl).2 (by decide)⟩

end SpaceCLI
